import Mathlib

/-!
Verification of the netconf-client core against its natural-language
specification.

The development shallowly embeds the relevant parts of the TypeScript
source:

* `NetconfBuffer` (the message framer) from `src/lib/netconf-buffer.ts`
  (`NETCONF_MAX_BUFFER_SIZE`, `NETCONF_DELIM`, `append`, `extract`,
  `clear`);
* `resolveXPath` (the response pruner) from `src/cli/resolve-xpath.ts`;
* the `message-id` counter, the `close()` guard logic and the `hasError`
  classification of `NetconfClient` from `src/lib/netconf-client.ts`;
* `findConfigPartsInSchema` of `NetconfBuildConfig` from
  `src/lib/netconf-build-config.ts`.

Byte buffers are modelled as `List Nat` (one `Nat` per byte); JavaScript
objects are modelled as ordered association lists, mirroring the
insertion-ordered string keys that `Object.keys` iterates.
-/

namespace Netconf

/-! ## Framer: `NetconfBuffer` (src/lib/netconf-buffer.ts)

```ts
const NETCONF_MAX_BUFFER_SIZE = 50 * 1024 * 1024;
export const NETCONF_DELIM = ']]>]]>';

export class NetconfBuffer {
  private buffer: Buffer = Buffer.from('');

  public append(chunk: Buffer): boolean {
    if (this.buffer.length + chunk.length > NETCONF_MAX_BUFFER_SIZE) {
      return false;
    }
    this.buffer = Buffer.concat([this.buffer, chunk]);
    return true;
  }

  public extract(): string | undefined {
    const pos = this.buffer.indexOf(NETCONF_DELIM);
    if (pos === -1) return undefined;
    const message = this.buffer.subarray(0, pos).toString();
    this.buffer = this.buffer.subarray(pos + NETCONF_DELIM.length);
    return message;
  }

  public clear(): void { this.buffer = Buffer.from(''); }
}
```
-/

def NETCONF_MAX_BUFFER_SIZE : Nat := 50 * 1024 * 1024

/-- The end-of-message delimiter string `]]>]]>`. -/
def NETCONF_DELIM : String := "]]>]]>"

/-- The bytes of `NETCONF_DELIM` (ASCII `]` = 93, `>` = 62), as searched
for by `Buffer.indexOf(NETCONF_DELIM)`. -/
def delimBytes : List Nat := [93, 93, 62, 93, 93, 62]

/-- The framer state: the buffered bytes. -/
structure NetconfBuffer where
  buffer : List Nat
deriving Repr, DecidableEq

/-- `new NetconfBuffer()`: `buffer = Buffer.from('')`. -/
def emptyBuffer : NetconfBuffer := ⟨[]⟩

/-- `append(chunk)`: returns the updated framer and the boolean result
(`false` = overflow, framer unchanged). -/
def NetconfBuffer.append (st : NetconfBuffer) (chunk : List Nat) :
    NetconfBuffer × Bool :=
  if st.buffer.length + chunk.length > NETCONF_MAX_BUFFER_SIZE then
    (st, false)
  else
    (⟨st.buffer ++ chunk⟩, true)

/-- `Buffer.indexOf(pat)`: index of the first occurrence of `pat` in `l`,
or `none`. -/
def firstIndexOf (pat : List Nat) : List Nat → Option Nat
  | [] => if pat.isPrefixOf ([] : List Nat) then some 0 else none
  | a :: rest =>
    if pat.isPrefixOf (a :: rest) then some 0
    else (firstIndexOf pat rest).map (· + 1)

/-- `extract()`: returns the extracted message (if a delimiter is
buffered) and the updated framer. -/
def NetconfBuffer.extract (st : NetconfBuffer) :
    Option (List Nat) × NetconfBuffer :=
  match firstIndexOf delimBytes st.buffer with
  | none => (none, st)
  | some pos =>
    (some (st.buffer.take pos), ⟨st.buffer.drop (pos + delimBytes.length)⟩)

/-- `clear()`. -/
def NetconfBuffer.clear (_ : NetconfBuffer) : NetconfBuffer := ⟨[]⟩

/-- The sender-side wire stream: each message followed by the delimiter. -/
def wireStream (msgs : List (List Nat)) : List Nat :=
  (msgs.map (· ++ delimBytes)).flatten

/-- `m` is a well-framed message: in `m ++ delim` the first delimiter
occurrence is the appended one.  This holds exactly of the byte segments
between delimiters of a wire stream (greedy left-to-right parse). -/
def goodMessage (m : List Nat) : Prop :=
  firstIndexOf delimBytes (m ++ delimBytes) = some m.length

instance (m : List Nat) : Decidable (goodMessage m) := by
  unfold goodMessage; infer_instance

/-- Repeated `extract()` until no complete message remains: the list of
extracted messages and the final framer. -/
def drain (st : NetconfBuffer) : List (List Nat) × NetconfBuffer :=
  match h : st.extract with
  | (none, _) => ([], st)
  | (some m, st') =>
    let r := drain st'
    (m :: r.1, r.2)
termination_by st.buffer.length
decreasing_by
  unfold NetconfBuffer.extract at h
  cases hfi : firstIndexOf delimBytes st.buffer with
  | none => rw [hfi] at h; exact absurd h (by simp)
  | some k =>
    rw [hfi] at h
    injection h with h1 h2
    subst h2
    have hpos : 0 < st.buffer.length := by
      cases hbuf : st.buffer with
      | nil => rw [hbuf] at hfi; simp [firstIndexOf, delimBytes, List.isPrefixOf] at hfi
      | cons a t => simp
    simp only [List.length_drop]
    have h6 : 0 < delimBytes.length := by decide
    omega

/-- The per-request receive loop of `sendXml` / `channelHelloEvent`: for
each incoming chunk, `append` it (aborting the session on overflow) and
then `extract()` messages in a loop until none remains.  Returns all
extracted messages, the final framer, and `false` if an overflow occurred. -/
def processChunks (st : NetconfBuffer) :
    List (List Nat) → List (List Nat) × NetconfBuffer × Bool
  | [] => ([], st, true)
  | ck :: cks =>
    if (st.append ck).2 then
      ((drain (st.append ck).1).1
          ++ (processChunks (drain (st.append ck).1).2 cks).1,
       (processChunks (drain (st.append ck).1).2 cks).2)
    else ([], st, false)

/-- ASCII bytes of `'foo'`. -/
def fooMsg : List Nat := [102, 111, 111]

/-- ASCII bytes of `'bar'`. -/
def barMsg : List Nat := [98, 97, 114]

/-- ASCII bytes of `'foo]]>]]>bar]]>]]>'`. -/
def fooBarChunk : List Nat := fooMsg ++ delimBytes ++ barMsg ++ delimBytes

/-- Framing of every outgoing message in `sendRequest` / `sendHello`
(src/lib/netconf-client.ts): `` `${xml}\n${NETCONF_DELIM}` ``. -/
def frameOutgoing (xml : String) : String := xml ++ "\n" ++ NETCONF_DELIM

/-! ## Tree values

`NetconfType` (src/lib/netconf-types.ts):

```ts
export type NetconfPrimitiveType = string | number | boolean;
export interface NetconfType {
  [key: string]: NetconfPrimitiveType | NetconfPrimitiveType[] | NetconfType | NetconfType[] | undefined | null;
}
```

`NVal` models a JavaScript value of this shape.  `undef` models both the
JavaScript `undefined` value and the hole left in an array by `delete`. -/

inductive NVal where
  | str   : String → NVal
  | num   : Int → NVal
  | bool  : Bool → NVal
  | null  : NVal
  | undef : NVal
  | obj   : List (String × NVal) → NVal
  | arr   : List NVal → NVal
deriving Repr

/-- `Array.isArray(v)`. -/
def isArr : NVal → Bool
  | .arr _ => true
  | _ => false

/-- `typeof v === 'object'` (true for objects, arrays and `null`). -/
def isTypeofObject : NVal → Bool
  | .obj _ => true
  | .arr _ => true
  | .null => true
  | _ => false

/-- `v && typeof v === 'object'`: a truthy object (object or array,
excluding `null`). -/
def isObjOrArr : NVal → Bool
  | .obj _ => true
  | .arr _ => true
  | _ => false

/-- A primitive (non-node) value: string, number, boolean, null or
undefined. -/
def isPrim (v : NVal) : Bool := !(isObjOrArr v)

/-- First value bound to key `k` in an object (JS objects cannot hold
duplicate keys, so the first binding is the binding). -/
def lookupKV (kvs : List (String × NVal)) (k : String) : Option NVal :=
  (kvs.find? (·.1 == k)).map (·.2)

/-- `o[k] = v` on a JS object: overwrite in place if the key exists
(keeping its position), otherwise append the key. -/
def upsert (kvs : List (String × NVal)) (k : String) (v : NVal) :
    List (String × NVal) :=
  if kvs.any (·.1 == k) then
    kvs.map (fun p => if p.1 == k then (k, v) else p)
  else kvs ++ [(k, v)]

/-! ## Response pruner: `resolveXPath` (src/cli/resolve-xpath.ts)

```ts
export function resolveXPath(obj: NetconfType | undefined, xpathStr: string): NetconfType | undefined {
  if(obj === undefined) return undefined;
  const xpathItems = xpathStr.split('/');
  if (xpathItems[0] === '') {
    xpathItems.shift();
  }
  return resolveXPathRecursive(obj, xpathItems);
}

function resolveXPathRecursive(obj: NetconfType, xpathItems: string[]): NetconfType {
  if (xpathItems.length === 0) return obj;
  const [levelItem, ...rest] = xpathItems;
  const level = levelItem.match(/[^[]+/)?.[0];
  if (!level || !obj.hasOwnProperty(level)) return obj;
  return resolveXPathRecursive(obj[level] as NetconfType, rest);
}
```
-/

/-- `str.split(sep)` on a character list (JS `''.split('/')` is `['']`). -/
def splitOnChar (sep : Char) : List Char → List (List Char)
  | [] => [[]]
  | a :: rest =>
    match splitOnChar sep rest with
    | [] => [[]]
    | s :: ss => if a == sep then [] :: s :: ss else (a :: s) :: ss

/-- `levelItem.match(/[^[]+/)?.[0]`: the first maximal nonempty run of
characters other than `[`. -/
def matchLevel (seg : List Char) : Option (List Char) :=
  let lvl := (seg.dropWhile (· == '[')).takeWhile (· != '[')
  if lvl.isEmpty then none else some lvl

/-- Canonical array-index property names: `"0"`, `"1"`, … (all digits, no
leading zero). -/
def parseIndex (s : List Char) : Option Nat :=
  if s = ['0'] then some 0
  else if s ≠ [] ∧ s.head? ≠ some '0' ∧ s.all Char.isDigit then
    some (s.foldl (fun acc c => 10 * acc + (c.toNat - 48)) 0)
  else none

/-- `v.hasOwnProperty(k) ? v[k] : undefined-as-none`, for non-null,
non-undefined `v`.  Objects expose their keys; arrays expose their index
slots (holes excluded) and `length`; strings expose their character
indices and `length`; numbers and booleans have no own properties. -/
def ownProp : NVal → List Char → Option NVal
  | .obj kvs, k => lookupKV kvs (String.mk k)
  | .arr vs, k =>
    if k = "length".data then some (.num vs.length)
    else
      match parseIndex k with
      | some i =>
        match vs.get? i with
        | some .undef => none
        | x => x
      | none => none
  | .str s, k =>
    if k = "length".data then some (.num s.length)
    else
      match parseIndex k with
      | some i => (s.data.get? i).map (fun c => NVal.str (String.mk [c]))
      | none => none
  | _, _ => none

/-- `resolveXPathRecursive`.  `Except.error ()` models the `TypeError`
thrown by `obj.hasOwnProperty` when `obj` is `null` or `undefined`. -/
def resolveXPathRecursive (obj : NVal) (xpathItems : List (List Char)) :
    Except Unit NVal :=
  match xpathItems with
  | [] => .ok obj
  | levelItem :: rest =>
    match matchLevel levelItem with
    | none => .ok obj
    | some level =>
      match obj with
      | .null => .error ()
      | .undef => .error ()
      | _ =>
        match ownProp obj level with
        | none => .ok obj
        | some child => resolveXPathRecursive child rest

/-- `resolveXPath`. -/
def resolveXPath (obj : Option NVal) (xpathStr : String) :
    Except Unit (Option NVal) :=
  match obj with
  | none => .ok none
  | some o =>
    let xpathItems := splitOnChar '/' xpathStr.data
    let xpathItems :=
      match xpathItems with
      | [] :: rest => rest
      | l => l
    (resolveXPathRecursive o xpathItems).map some

/-- `r` is a node of the tree `t` (the tree itself or a value reachable
through object entries and array slots). -/
inductive SubVal : NVal → NVal → Prop where
  | refl (v : NVal) : SubVal v v
  | objMem {r c : NVal} {k : String} {kvs : List (String × NVal)} :
      (k, c) ∈ kvs → SubVal r c → SubVal r (.obj kvs)
  | arrMem {r c : NVal} {vs : List NVal} :
      c ∈ vs → SubVal r c → SubVal r (.arr vs)

/-- The tree `{a: {b: {c: 3}}}` of the prune seed tests. -/
def abcTree : NVal := .obj [("a", .obj [("b", .obj [("c", .num 3)])])]

/-! ## Session engine (src/lib/netconf-client.ts)

`message-id` assignment (lines 48 and 337–344):

```ts
private idCounter = 0;
...
private sendRequest(request: NetconfType, stop$?: Subject<void>): Observable<RpcReply> {
  const messageId = this.idCounter += 1;
  ...
  object.rpc.$['message-id'] = messageId;
```
-/

/-- The mutable counter state of a `NetconfClient`. -/
structure NetconfClientState where
  idCounter : Nat
deriving Repr, DecidableEq

/-- A freshly constructed client: `idCounter = 0`. -/
def initialClient : NetconfClientState := ⟨0⟩

/-- `sendRequest`: assigns `messageId = (idCounter += 1)`.  Returns the
assigned message-id and the updated client state.  (`sendCloseSession`,
used by `close()`, also goes through `sendRequest`.) -/
def sendRequest (st : NetconfClientState) : Nat × NetconfClientState :=
  (st.idCounter + 1, ⟨st.idCounter + 1⟩)

/-- The message-ids assigned to `n` successive requests. -/
def messageIds (st : NetconfClientState) : Nat → List Nat
  | 0 => []
  | n + 1 => (sendRequest st).1 :: messageIds (sendRequest st).2 n

instance {ε α : Type _} [DecidableEq ε] [DecidableEq α] :
    DecidableEq (Except ε α) := fun a b =>
  match a, b with
  | .ok x, .ok y =>
    if h : x = y then .isTrue (by rw [h])
    else .isFalse (fun hc => h (Except.ok.inj hc))
  | .error x, .error y =>
    if h : x = y then .isTrue (by rw [h])
    else .isFalse (fun hc => h (Except.error.inj hc))
  | .ok _, .error _ => .isFalse (fun hc => Except.noConfusion hc)
  | .error _, .ok _ => .isFalse (fun hc => Except.noConfusion hc)

/-- The value held by `netconfChannelSubject$` while the subject exists. -/
inductive ChannelState where
  | uninitialized
  | connecting
  | ready
deriving Repr, DecidableEq

/-- `close()` (lines 134–244), reduced to its deterministic guard logic
and final effect.  The argument models `netconfChannelSubject$`: `none`
means the subject was set to `undefined` by a previous completed
`close()`.  From `connecting` or `ready` the pipeline completes the
subject and sets it to `undefined` (`.ok none`); errors of the
close-session RPC and of the SSH teardown are swallowed by the
`catchError` stages, which this model reflects by treating the
cooperative transport interactions as succeeding. -/
def closeStep : Option ChannelState → Except String (Option ChannelState)
  | none => .error "Trying to close connection that was already closed"
  | some .uninitialized => .error "Trying to close connection that was not opened"
  | some .connecting => .ok none
  | some .ready => .ok none

/-! ### Error classification: `hasError` (lines 674–696)

```ts
private hasError(rpcReply: NetconfType): string | undefined {
  const rpcError = rpcReply['rpc-error'] as RpcErrorType;
  if (!rpcError) return undefined;
  const errorMessage = rpcError['error-message'];
  if(typeof errorMessage === 'object'){
    return errorMessage?._ ?? rpcError['error-tag'];
  }else if(typeof errorMessage === 'string'){
    return errorMessage;
  }else{
    switch (rpcError['error-tag']) {
    case 'unknown-element':
      return `Unknown element: "${rpcError['error-info']?.['bad-element'] ?? ''}". Do you need to provide a namespace?`;
    case 'unknown-namespace':
      return `Unknown namespace: "${rpcError['error-info']?.['bad-namespace'] ?? ''}"`;
    case 'data-exists':
      return `Trying to create data that already exists (element "${rpcError['error-info']?.['bad-element'] ?? ''}")`;
    default:
      return rpcError['error-tag'];
    }
  }
}
```
-/

/-- The decoded `error-message` field of an `rpc-error`.  `nullv` is the
JavaScript `null` (for which `typeof` is also `'object'`); `obj m` is an
object whose optional `_` text is `m`. -/
inductive ErrorMessageField where
  | absent
  | nullv
  | str (s : String)
  | obj (text : Option String)
deriving Repr, DecidableEq

/-- The fields of a decoded `rpc-error` that `hasError` consults. -/
structure RpcErrorType where
  errorMessage : ErrorMessageField
  errorTag : Option String
  badElement : Option String
  badNamespace : Option String
deriving Repr, DecidableEq

/-- `hasError`, on the decoded `rpc-error` field of an `rpc-reply`
(`none` = the reply has no `rpc-error`). -/
def hasError (rpcError : Option RpcErrorType) : Option String :=
  match rpcError with
  | none => none
  | some e =>
    match e.errorMessage with
    | .obj m =>
      match m with
      | some t => some t
      | none => e.errorTag
    | .nullv => e.errorTag
    | .str s => some s
    | .absent =>
      match e.errorTag with
      | some "unknown-element" =>
        some ("Unknown element: \"" ++ e.badElement.getD "" ++
          "\". Do you need to provide a namespace?")
      | some "unknown-namespace" =>
        some ("Unknown namespace: \"" ++ e.badNamespace.getD "" ++ "\"")
      | some "data-exists" =>
        some ("Trying to create data that already exists (element \"" ++
          e.badElement.getD "" ++ "\")")
      | t => t

/-- The inferred per-tag error texts of `hasError`. -/
def inferredByTag (e : RpcErrorType) : Option String :=
  match e.errorTag with
  | some "unknown-element" =>
    some ("Unknown element: \"" ++ e.badElement.getD "" ++
      "\". Do you need to provide a namespace?")
  | some "unknown-namespace" =>
    some ("Unknown namespace: \"" ++ e.badNamespace.getD "" ++ "\"")
  | some "data-exists" =>
    some ("Trying to create data that already exists (element \"" ++
      e.badElement.getD "" ++ "\")")
  | t => t

/-- The explicit `error-message` text: `error-message._` when
`error-message` is an object, `error-message` itself when it is a
string. -/
def explicitText (e : RpcErrorType) : Option String :=
  match e.errorMessage with
  | .obj (some t) => some t
  | .str s => some s
  | _ => none

/-- Written after the spec's words (§4.3, claim C7): "Message selection
precedence: explicit `error-message._` or `error-message` text; else an
inferred text by `error-tag` (`unknown-element`, `unknown-namespace`,
`data-exists`); else the raw tag."  For comparison with `hasError`. -/
def specClaimedErrorMessage (e : RpcErrorType) : Option String :=
  match explicitText e with
  | some t => some t
  | none => inferredByTag e

/-- The amended precedence: explicit text first; but when `error-message`
is an object without `_` text (or `null`), fall back directly to the raw
`error-tag`; the inferred per-tag texts apply only when `error-message`
is absent (not an object and not a string). -/
def amendedErrorMessage (e : RpcErrorType) : Option String :=
  match explicitText e with
  | some t => some t
  | none =>
    match e.errorMessage with
    | .obj _ => e.errorTag
    | .nullv => e.errorTag
    | _ => inferredByTag e

/-! ## Schema-guided build: `NetconfBuildConfig.findConfigPartsInSchema`
(src/lib/netconf-build-config.ts, lines 140–197)

```ts
private findConfigPartsInSchema(schema: NetconfType, xpathSteps: string[]): NetconfType[] {
  const configParts: NetconfType[] = [];
  const searchSchema = (currentObj: NetconfType, steps: string[], step: number): boolean => {
    if(steps.length === 0){
      this.stripNestedObjects(currentObj);
      configParts.push(currentObj);
      return true;
    }
    if(steps.length === 1 && steps[0] === '*' && !Array.isArray(currentObj)){
      this.stripNestedObjects(currentObj);
      configParts.push(currentObj);
      return true;
    }
    if(typeof currentObj !== 'object' || currentObj === null) {
      return false;
    }
    let branchPassed = false;
    for(const key of Object.keys(currentObj)){
      const isWildcardMatch = steps[0] === '*' && steps.length > 1 && key === steps[1];
      if(key === steps[0] || isWildcardMatch){
        const newSteps = isWildcardMatch ? steps.slice(1) : steps;
        if(newSteps.length === 1 && Array.isArray(currentObj[key])){
          currentObj[key] = {};
        }
        branchPassed = searchSchema(currentObj[key] as NetconfType, newSteps.slice(1), step + 1) || branchPassed;
      }else if(steps[0] === '*' && steps.length === 1){
        branchPassed = searchSchema(currentObj[key] as NetconfType, [], step + 1) || branchPassed;
      }else{
        branchPassed = searchSchema(currentObj[key] as NetconfType, steps, step + 1) || branchPassed;
      }
      if (!branchPassed && (Array.isArray(currentObj[key]) || typeof currentObj[key] === 'object')) {
        delete currentObj[key];
      }
    }
    if(step === 1 && this.targetNamespace){
      currentObj.$ = { ...currentObj.$ ?? {}, xmlns: this.targetNamespace };
    }
    return branchPassed;
  };
  searchSchema(schema, xpathSteps, 0);
  return configParts;
}

private stripNestedObjects = (obj: NetconfType): void => {
  if (typeof obj === 'object' && obj !== null) {
    Object.keys(obj).forEach(key => {
      if (obj[key] && typeof obj[key] === 'object') { delete obj[key]; }
    });
  }
};
```

The model passes the mutated tree explicitly (`configParts` entries are
snapshots of the pushed nodes at push time).  `delete` on an array slot
leaves a hole, modelled by `.undef`; `Object.keys` iterates the key list
captured at loop entry, which the loop body never extends. -/

/-- `stripNestedObjects`: delete every truthy-object sub-key (`null`
survives, being falsy). -/
def stripNestedObjects : NVal → NVal
  | .obj kvs => .obj (kvs.filter (fun p => !(isObjOrArr p.2)))
  | .arr vs => .arr (vs.map (fun v => if isObjOrArr v then NVal.undef else v))
  | v => v

/-- `currentObj.$ = { ...currentObj.$ ?? {}, xmlns: ns }` at `step === 1`
when a target namespace is configured (only objects are affected in a
way observable to this model). -/
def injectNamespace (ns : Option String) : NVal → NVal
  | .obj kvs =>
    match ns with
    | none => .obj kvs
    | some uri =>
      let dollar :=
        match lookupKV kvs "$" with
        | some (.obj d) => d
        | _ => []
      .obj (upsert kvs "$" (.obj (upsert dollar "xmlns" (.str uri))))
  | v => v

/-- JavaScript `undefined` (also an array hole). -/
def isUndef : NVal → Bool
  | .undef => true
  | _ => false

/-- How the loop body of `searchSchema` treats one key: either the
array-conversion shortcut (`currentObj[key] = {}` followed by the
recursive call on `{}` with the empty remaining path, which strips
nothing, pushes `{}` and returns `true`), or the recursive
`searchSchema` call with the computed remaining steps. -/
inductive StepChoice where
  | convert
  | recurse (newSteps : List String)
deriving Repr, DecidableEq

/-- The step selection of the loop body, for key `key` whose current
child is an array iff `childIsArr`:

```ts
const isWildcardMatch = steps[0] === '*' && steps.length > 1 && key === steps[1];
if(key === steps[0] || isWildcardMatch){
  const newSteps = isWildcardMatch ? steps.slice(1) : steps;
  if(newSteps.length === 1 && Array.isArray(currentObj[key])){ currentObj[key] = {}; }
  ... searchSchema(currentObj[key], newSteps.slice(1), step + 1) ...
}else if(steps[0] === '*' && steps.length === 1){
  ... searchSchema(currentObj[key], [], step + 1) ...
}else{
  ... searchSchema(currentObj[key], steps, step + 1) ...
}
```
-/
def keyStepChoice (steps : List String) (key : String) (childIsArr : Bool) :
    StepChoice :=
  match steps with
  | step0 :: rest0 =>
    let isWildcardMatch := step0 = "*" ∧ rest0 ≠ [] ∧ rest0.head? = some key
    if key = step0 ∨ isWildcardMatch then
      let newSteps := if isWildcardMatch then rest0 else steps
      if newSteps.length = 1 ∧ childIsArr then .convert
      else .recurse (newSteps.drop 1)
    else if step0 = "*" ∧ rest0 = [] then .recurse []
    else .recurse steps
  | [] => .recurse []

mutual

/-- The `searchSchema` closure: returns the updated (pruned) node, the
pushed config parts, and the returned `branchPassed` boolean. -/
def searchSchema (ns : Option String) (steps : List String) (step : Nat)
    (v : NVal) : NVal × List NVal × Bool :=
  if steps = [] then
    let v' := stripNestedObjects v
    (v', [v'], true)
  else if steps = ["*"] ∧ isArr v = false then
    let v' := stripNestedObjects v
    (v', [v'], true)
  else
    match v with
    | .obj kvs =>
      let r := searchEntries ns steps step kvs false
      let tree := NVal.obj r.1
      let tree' := if step = 1 then injectNamespace ns tree else tree
      (tree', r.2.1, r.2.2)
    | .arr vs =>
      let r := searchElems ns steps step 0 vs false
      (.arr r.1, r.2.1, r.2.2)
    | other => (other, [], false)

def searchEntries (ns : Option String) (steps : List String) (step : Nat)
    (kvs : List (String × NVal)) (acc : Bool) :
    List (String × NVal) × List NVal × Bool :=
  match kvs with
  | [] => ([], [], acc)
  | (k, c) :: rest =>
    let pr :=
      match keyStepChoice steps k (isArr c) with
      | .convert => ((NVal.obj []), [NVal.obj []], true)
      | .recurse newSteps => searchSchema ns newSteps (step + 1) c
    let acc' := pr.2.2 || acc
    let restR := searchEntries ns steps step rest acc'
    if acc' = false ∧ isTypeofObject pr.1 = true then
      (restR.1, pr.2.1 ++ restR.2.1, restR.2.2)
    else
      ((k, pr.1) :: restR.1, pr.2.1 ++ restR.2.1, restR.2.2)

def searchElems (ns : Option String) (steps : List String) (step : Nat)
    (idx : Nat) (vs : List NVal) (acc : Bool) :
    List NVal × List NVal × Bool :=
  match vs with
  | [] => ([], [], acc)
  | c :: rest =>
    if isUndef c then
      -- a hole: `Object.keys` skips it (the index is not an own property)
      let restR := searchElems ns steps step (idx + 1) rest acc
      (NVal.undef :: restR.1, restR.2.1, restR.2.2)
    else
      let pr :=
        match keyStepChoice steps (Nat.repr idx) (isArr c) with
        | .convert => ((NVal.obj []), [NVal.obj []], true)
        | .recurse newSteps => searchSchema ns newSteps (step + 1) c
      let acc' := pr.2.2 || acc
      let restR := searchElems ns steps step (idx + 1) rest acc'
      if acc' = false ∧ isTypeofObject pr.1 = true then
        (NVal.undef :: restR.1, pr.2.1 ++ restR.2.1, restR.2.2)
      else
        (pr.1 :: restR.1, pr.2.1 ++ restR.2.1, restR.2.2)

end

/-- `findConfigPartsInSchema(schema, xpathSteps)`: returns the mutated
target tree and the collected `configParts`. -/
def findConfigPartsInSchema (ns : Option String) (schema : NVal)
    (xpathSteps : List String) : NVal × List NVal :=
  let r := searchSchema ns xpathSteps 0 schema
  (r.1, r.2.1)

/-! ## Framer lemmas -/

theorem firstIndexOf_eq_some {pat l : List Nat} {k : Nat} (hne : pat ≠ []) :
    firstIndexOf pat l = some k ↔
      pat <+: l.drop k ∧ ∀ j < k, ¬ pat <+: l.drop j := by
  induction l generalizing k with
  | nil =>
    have hnp : pat.isPrefixOf ([] : List Nat) = false := by
      cases pat with
      | nil => exact absurd rfl hne
      | cons a t => rfl
    simp only [firstIndexOf, hnp]
    constructor
    · intro h; simp at h
    · rintro ⟨h1, -⟩
      simp only [List.drop_nil] at h1
      exact absurd (List.prefix_nil.mp h1) hne
  | cons a rest ih =>
    by_cases hp : pat.isPrefixOf (a :: rest)
    · rw [List.isPrefixOf_iff_prefix] at hp
      simp only [firstIndexOf, List.isPrefixOf_iff_prefix, hp, if_true]
      constructor
      · rintro h
        injection h with h; subst h
        exact ⟨hp, by omega⟩
      · rintro ⟨h1, h2⟩
        cases k with
        | zero => rfl
        | succ k' => exact absurd hp (h2 0 (Nat.succ_pos _))
    · have hp' : ¬ pat <+: (a :: rest) := fun hc =>
        hp (List.isPrefixOf_iff_prefix.mpr hc)
      simp only [firstIndexOf, List.isPrefixOf_iff_prefix, hp', if_false]
      constructor
      · intro h
        obtain ⟨k', hk', rfl⟩ := Option.map_eq_some'.mp h
        obtain ⟨h1, h2⟩ := (ih.mp hk')
        refine ⟨h1, ?_⟩
        intro j hj
        cases j with
        | zero => simpa using hp'
        | succ j' => exact h2 j' (by omega)
      · rintro ⟨h1, h2⟩
        cases k with
        | zero => exact absurd (by simpa using h1) hp'
        | succ k' =>
          rw [Option.map_eq_some']
          refine ⟨k', ih.mpr ⟨by simpa using h1, ?_⟩, rfl⟩
          intro j hj
          have := h2 (j + 1) (by omega)
          simpa using this

theorem firstIndexOf_bound {pat l : List Nat} {k : Nat} (hne : pat ≠ [])
    (h : firstIndexOf pat l = some k) : k + pat.length ≤ l.length := by
  have h1 := ((firstIndexOf_eq_some hne).mp h).1
  have h2 : pat.length ≤ (l.drop k).length := h1.length_le
  have h3 : 0 < pat.length := List.length_pos.mpr hne
  rw [List.length_drop] at h2
  omega

/-- The first occurrence of a fully contained pattern is stable under
appending more bytes to the buffer. -/
theorem firstIndexOf_append {pat l : List Nat} {k : Nat} (s : List Nat)
    (hne : pat ≠ []) (h : firstIndexOf pat l = some k) :
    firstIndexOf pat (l ++ s) = some k := by
  have hb := firstIndexOf_bound hne h
  have hpos : 0 < pat.length := List.length_pos.mpr hne
  obtain ⟨h1, h2⟩ := (firstIndexOf_eq_some hne).mp h
  rw [firstIndexOf_eq_some hne]
  constructor
  · rw [List.drop_append_of_le_length (by omega)]
    exact h1.trans (List.prefix_append _ _)
  · intro j hj hc
    apply h2 j hj
    rw [List.drop_append_of_le_length (by omega)] at hc
    have hlen : pat.length ≤ (l.drop j).length := by
      rw [List.length_drop]; omega
    rw [List.prefix_iff_eq_take] at hc ⊢
    rwa [List.take_append_of_le_length hlen] at hc

theorem extract_no_delim {st : NetconfBuffer}
    (h : firstIndexOf delimBytes st.buffer = none) :
    st.extract = (none, st) := by
  unfold NetconfBuffer.extract
  rw [h]

theorem extract_some_shrinks {st st' : NetconfBuffer} {m : List Nat}
    (h : st.extract = (some m, st')) :
    st'.buffer.length < st.buffer.length := by
  unfold NetconfBuffer.extract at h
  cases hfi : firstIndexOf delimBytes st.buffer with
  | none => rw [hfi] at h; exact absurd h (by simp)
  | some k =>
    rw [hfi] at h
    have hb := firstIndexOf_bound (by decide) hfi
    have hd : 0 < delimBytes.length := by decide
    injection h with h1 h2
    subst h2
    simp only [List.length_drop]
    omega

/-- Extracting a complete message is stable under appending more bytes. -/
theorem extract_append_some {st st' : NetconfBuffer} {m : List Nat}
    (c : List Nat) (h : st.extract = (some m, st')) :
    NetconfBuffer.extract ⟨st.buffer ++ c⟩ = (some m, ⟨st'.buffer ++ c⟩) := by
  unfold NetconfBuffer.extract at h ⊢
  cases hfi : firstIndexOf delimBytes st.buffer with
  | none => rw [hfi] at h; exact absurd h (by simp)
  | some k =>
    rw [hfi] at h
    have hb := firstIndexOf_bound (by decide) hfi
    injection h with h1 h2
    injection h1 with h1
    subst h1
    subst h2
    simp only [firstIndexOf_append c (by decide) hfi]
    rw [List.take_append_of_le_length (by omega),
        List.drop_append_of_le_length (by omega)]

theorem drain_nil (st : NetconfBuffer)
    (h : firstIndexOf delimBytes st.buffer = none) :
    drain st = ([], st) := by
  rw [drain]
  split
  · rfl
  · next m st' heq =>
    rw [extract_no_delim h] at heq
    exact absurd heq (by simp)

theorem drain_step {st st' : NetconfBuffer} {m : List Nat}
    (h : st.extract = (some m, st')) :
    drain st = (m :: (drain st').1, (drain st').2) := by
  rw [drain]
  split
  · next x heq =>
    rw [h] at heq
    exact absurd heq (by simp)
  · next m2 st2 heq =>
    rw [h] at heq
    injection heq with h1 h2
    injection h1 with h1
    subst h1 h2
    rfl

/-- On a well-framed head message, `extract` returns exactly that message
and leaves the rest buffered. -/
theorem extract_good (m s : List Nat) (hm : goodMessage m) :
    NetconfBuffer.extract ⟨m ++ delimBytes ++ s⟩ = (some m, ⟨s⟩) := by
  have h' : firstIndexOf delimBytes ((m ++ delimBytes) ++ s) = some m.length :=
    firstIndexOf_append s (by decide) hm
  have ht : (m ++ delimBytes ++ s).take m.length = m := by
    rw [List.append_assoc]
    exact List.take_left m (delimBytes ++ s)
  have hd : (m ++ delimBytes ++ s).drop (m.length + delimBytes.length) = s := by
    rw [show m.length + delimBytes.length = (m ++ delimBytes).length by
          simp [List.length_append]]
    exact List.drop_left (m ++ delimBytes) s
  unfold NetconfBuffer.extract
  rw [h']
  dsimp only
  rw [ht, hd]

/-- Draining a fully delimited stream plus a delimiter-free tail yields
exactly the sender's messages, leaving the tail buffered. -/
theorem drain_wireStream (msgs : List (List Nat)) (t : List Nat)
    (hm : ∀ m ∈ msgs, goodMessage m)
    (ht : firstIndexOf delimBytes t = none) :
    drain ⟨wireStream msgs ++ t⟩ = (msgs, ⟨t⟩) := by
  induction msgs with
  | nil =>
    simpa [wireStream] using drain_nil ⟨t⟩ ht
  | cons m ms ih =>
    have hms : ∀ x ∈ ms, goodMessage x := fun x hx => hm x (by simp [hx])
    have hstream : wireStream (m :: ms) ++ t
        = m ++ delimBytes ++ (wireStream ms ++ t) := by
      simp [wireStream, List.append_assoc]
    rw [hstream]
    rw [drain_step (extract_good m (wireStream ms ++ t) (hm m (by simp)))]
    rw [ih hms]

/-- Draining commutes with appending further bytes: appending `c` and
draining produces the messages already drainable plus whatever the
leftover-plus-`c` yields. -/
theorem drain_append (st : NetconfBuffer) (c : List Nat) :
    drain ⟨st.buffer ++ c⟩ =
      ((drain st).1 ++ (drain ⟨(drain st).2.buffer ++ c⟩).1,
       (drain ⟨(drain st).2.buffer ++ c⟩).2) := by
  have main : ∀ n (st : NetconfBuffer), st.buffer.length ≤ n →
      drain ⟨st.buffer ++ c⟩ =
        ((drain st).1 ++ (drain ⟨(drain st).2.buffer ++ c⟩).1,
         (drain ⟨(drain st).2.buffer ++ c⟩).2) := by
    intro n
    induction n with
    | zero =>
      intro st hlen
      have hb : st.buffer = [] := List.length_eq_zero.mp (by omega)
      have hfi : firstIndexOf delimBytes st.buffer = none := by
        rw [hb]; decide
      rw [drain_nil st hfi]
      simp [hb]
    | succ n ih =>
      intro st hlen
      cases hx : st.extract with
      | mk om st₁ =>
        cases om with
        | none =>
          have hfi : firstIndexOf delimBytes st.buffer = none := by
            unfold NetconfBuffer.extract at hx
            cases hfi : firstIndexOf delimBytes st.buffer with
            | none => rfl
            | some k => rw [hfi] at hx; exact absurd hx (by simp)
          rw [drain_nil st hfi]
          simp
        | some m =>
          have hstep := drain_step hx
          have hstep' := drain_step (extract_append_some c hx)
          rw [hstep', hstep]
          have hlt := extract_some_shrinks hx
          rw [ih st₁ (by omega)]
          simp
  exact main st.buffer.length st (le_refl _)

/-- The leftover after draining holds no delimiter, and draining never
grows the buffer. -/
theorem drain_leftover (st : NetconfBuffer) :
    firstIndexOf delimBytes (drain st).2.buffer = none ∧
      (drain st).2.buffer.length ≤ st.buffer.length := by
  have main : ∀ n (st : NetconfBuffer), st.buffer.length ≤ n →
      firstIndexOf delimBytes (drain st).2.buffer = none ∧
        (drain st).2.buffer.length ≤ st.buffer.length := by
    intro n
    induction n with
    | zero =>
      intro st hlen
      have hb : st.buffer = [] := List.length_eq_zero.mp (by omega)
      have hfi : firstIndexOf delimBytes st.buffer = none := by
        rw [hb]; decide
      rw [drain_nil st hfi]
      exact ⟨hfi, le_refl _⟩
    | succ n ih =>
      intro st hlen
      cases hx : st.extract with
      | mk om st₁ =>
        cases om with
        | none =>
          have hfi : firstIndexOf delimBytes st.buffer = none := by
            unfold NetconfBuffer.extract at hx
            cases hfi : firstIndexOf delimBytes st.buffer with
            | none => rfl
            | some k => rw [hfi] at hx; exact absurd hx (by simp)
          rw [drain_nil st hfi]
          exact ⟨hfi, le_refl _⟩
        | some m =>
          rw [drain_step hx]
          have hlt := extract_some_shrinks hx
          obtain ⟨ih1, ih2⟩ := ih st₁ (by omega)
          exact ⟨ih1, by simpa using by omega⟩
  exact main st.buffer.length st (le_refl _)

theorem processChunks_spec (cks : List (List Nat)) (st : NetconfBuffer)
    (hst : firstIndexOf delimBytes st.buffer = none)
    (hlen : st.buffer.length + cks.flatten.length ≤ NETCONF_MAX_BUFFER_SIZE) :
    processChunks st cks =
      ((drain ⟨st.buffer ++ cks.flatten⟩).1,
       (drain ⟨st.buffer ++ cks.flatten⟩).2, true) := by
  induction cks generalizing st with
  | nil =>
    rw [processChunks]
    rw [show (([] : List (List Nat)).flatten) = [] from rfl, List.append_nil]
    rw [drain_nil st hst]
  | cons ck cks ih =>
    have hok : st.append ck = (⟨st.buffer ++ ck⟩, true) := by
      unfold NetconfBuffer.append
      rw [if_neg]
      simp only [List.flatten_cons, List.length_append] at hlen
      omega
    rw [processChunks, hok]
    dsimp only
    rw [if_pos rfl]
    obtain ⟨hleft, hlenle⟩ := drain_leftover ⟨st.buffer ++ ck⟩
    have hlen' : (drain ⟨st.buffer ++ ck⟩).2.buffer.length
        + cks.flatten.length ≤ NETCONF_MAX_BUFFER_SIZE := by
      simp only [List.length_append] at hlenle
      simp only [List.flatten_cons, List.length_append] at hlen
      omega
    rw [ih _ hleft hlen']
    have hda := drain_append ⟨st.buffer ++ ck⟩ cks.flatten
    simp only [List.flatten_cons, ← List.append_assoc]
    rw [hda]

/-! ## Claim theorems: framer -/

/-- C1: for every message stream and every way of splitting its bytes
into chunks passed to `append`, repeated `extract()` calls yield exactly
the sequence of messages the sender produced (the byte segments between
`]]>]]>` delimiters, in wire order), independent of chunk boundaries;
in particular after `append('foo]]>]]>bar]]>]]>')`, `extract()` returns
`'foo'`, then `'bar'`, then none. -/
theorem framer_chunk_invariance (msgs chunks : List (List Nat))
    (hmsgs : ∀ m ∈ msgs, goodMessage m)
    (hchunks : chunks.flatten = wireStream msgs)
    (hlen : (wireStream msgs).length ≤ NETCONF_MAX_BUFFER_SIZE) :
    processChunks emptyBuffer chunks = (msgs, ⟨[]⟩, true)
    ∧ (emptyBuffer.append fooBarChunk).2 = true
    ∧ (emptyBuffer.append fooBarChunk).1.extract
        = (some fooMsg, ⟨barMsg ++ delimBytes⟩)
    ∧ NetconfBuffer.extract ⟨barMsg ++ delimBytes⟩ = (some barMsg, ⟨[]⟩)
    ∧ NetconfBuffer.extract ⟨[]⟩ = (none, ⟨[]⟩) := by
  refine ⟨?_, by decide, by decide, by decide, by decide⟩
  have h0 : firstIndexOf delimBytes emptyBuffer.buffer = none := by decide
  have hlen' : emptyBuffer.buffer.length + chunks.flatten.length
      ≤ NETCONF_MAX_BUFFER_SIZE := by
    simpa [emptyBuffer, hchunks] using hlen
  rw [processChunks_spec chunks emptyBuffer h0 hlen']
  rw [show emptyBuffer.buffer ++ chunks.flatten = wireStream msgs ++ [] by
        simp [emptyBuffer, hchunks]]
  rw [drain_wireStream msgs [] hmsgs (by decide)]

/-- C1 witness: the general theorem applied to the two-message stream
`'foo]]>]]>bar]]>]]>'` delivered as a single chunk. -/
theorem framer_chunk_invariance_witness :
    processChunks emptyBuffer [fooBarChunk] = ([fooMsg, barMsg], ⟨[]⟩, true) :=
  (framer_chunk_invariance [fooMsg, barMsg] [fooBarChunk]
    (by decide) (by decide) (by decide)).1

/-- C2: `append` returns overflow exactly when the buffered bytes plus
the chunk's bytes exceed 50 MiB; on overflow the buffer is unchanged
(so `extract` still yields previously buffered complete messages);
otherwise the appended buffer holds at most 50 MiB, and `extract` never
grows the buffer. -/
theorem framer_overflow_boundary (st : NetconfBuffer) (c : List Nat) :
    ((st.append c).2 = false
      ↔ st.buffer.length + c.length > NETCONF_MAX_BUFFER_SIZE)
    ∧ ((st.append c).2 = false ∧ (st.append c).1 = st
          ∧ (st.append c).1.extract = st.extract
        ∨ (st.append c).2 = true
          ∧ (st.append c).1.buffer.length ≤ NETCONF_MAX_BUFFER_SIZE)
    ∧ st.extract.2.buffer.length ≤ st.buffer.length := by
  have hext : st.extract.2.buffer.length ≤ st.buffer.length := by
    unfold NetconfBuffer.extract
    cases hfi : firstIndexOf delimBytes st.buffer with
    | none => exact le_refl _
    | some k => simp [List.length_drop]
  unfold NetconfBuffer.append
  by_cases h : st.buffer.length + c.length > NETCONF_MAX_BUFFER_SIZE
  · rw [if_pos h]
    exact ⟨by simpa using h, Or.inl ⟨rfl, rfl, rfl⟩, hext⟩
  · rw [if_neg h]
    refine ⟨by simpa using h, Or.inr ⟨rfl, ?_⟩, hext⟩
    simp only [List.length_append]
    omega

/-- C9 counterexample: the end-of-message delimiter `]]>]]>` is six
bytes long, not seven as the claim states. -/
theorem delim_not_seven_bytes :
    NETCONF_DELIM.length = 6 ∧ delimBytes.length = 6
      ∧ NETCONF_DELIM.length ≠ 7 := by
  refine ⟨by decide, by decide, by decide⟩

/-! ## Pruner lemmas and claim theorems -/

theorem subval_trans {a b c : NVal} (hab : SubVal a b) (hbc : SubVal b c) :
    SubVal a c := by
  induction hbc with
  | refl => exact hab
  | objMem hmem _ ih => exact SubVal.objMem hmem ih
  | arrMem hmem _ ih => exact SubVal.arrMem hmem ih

/-- A property read from a value is a node of it or a fresh primitive
(`length` of arrays and strings, characters of strings). -/
theorem ownProp_subval {v child : NVal} {k : List Char}
    (h : ownProp v k = some child) :
    SubVal child v ∨ isPrim child = true := by
  cases v with
  | obj kvs =>
    simp only [ownProp, lookupKV] at h
    cases hf : kvs.find? (·.1 == String.mk k) with
    | none => rw [hf] at h; exact absurd h (by simp)
    | some p =>
      rw [hf] at h
      simp only [Option.map_some'] at h
      injection h with h
      have hmem : p ∈ kvs := List.mem_of_find?_eq_some hf
      subst h
      exact Or.inl (SubVal.objMem (k := p.1) hmem (SubVal.refl _))
  | arr vs =>
    simp only [ownProp] at h
    by_cases hl : k = "length".data
    · rw [if_pos hl] at h
      injection h with h
      subst h
      right; rfl
    · rw [if_neg hl] at h
      cases hp : parseIndex k with
      | none => rw [hp] at h; exact absurd h (by simp)
      | some i =>
        rw [hp] at h
        dsimp only at h
        cases hg : vs.get? i with
        | none => rw [hg] at h; exact absurd h (by simp)
        | some x =>
          rw [hg] at h
          have hmem : x ∈ vs := List.get?_mem hg
          cases x <;> first
            | exact Option.noConfusion h
            | (injection h with h; subst h
               exact Or.inl (SubVal.arrMem hmem (SubVal.refl _)))
  | str s =>
    simp only [ownProp] at h
    by_cases hl : k = "length".data
    · rw [if_pos hl] at h
      injection h with h
      subst h
      right; rfl
    · rw [if_neg hl] at h
      cases hp : parseIndex k with
      | none => rw [hp] at h; exact absurd h (by simp)
      | some i =>
        rw [hp] at h
        dsimp only at h
        cases hg : s.data.get? i with
        | none => rw [hg] at h; exact absurd h (by simp)
        | some ch =>
          rw [hg] at h
          simp only [Option.map_some'] at h
          injection h with h
          subst h
          right; rfl
  | num n => exact absurd h (by simp [ownProp])
  | bool b => exact absurd h (by simp [ownProp])
  | null => exact absurd h (by simp [ownProp])
  | undef => exact absurd h (by simp [ownProp])

theorem resolveXPathRecursive_subval (items : List (List Char)) :
    ∀ (v r : NVal), resolveXPathRecursive v items = .ok r →
      SubVal r v ∨ isPrim r = true := by
  induction items with
  | nil =>
    intro v r h
    unfold resolveXPathRecursive at h
    injection h with h
    subst h
    exact Or.inl (SubVal.refl _)
  | cons seg rest ih =>
    intro v r h
    unfold resolveXPathRecursive at h
    cases hml : matchLevel seg with
    | none =>
      rw [hml] at h
      injection h with h
      subst h
      exact Or.inl (SubVal.refl _)
    | some level =>
      rw [hml] at h
      have step : ∀ w : NVal, (match ownProp w level with
            | none => Except.ok w
            | some child => resolveXPathRecursive child rest) = .ok r →
          SubVal r w ∨ isPrim r = true := by
        intro w hw
        cases hop : ownProp w level with
        | none =>
          rw [hop] at hw
          injection hw with hw
          subst hw
          exact Or.inl (SubVal.refl _)
        | some child =>
          rw [hop] at hw
          rcases ih child r hw with hc | hc
          · rcases ownProp_subval hop with hs | hs
            · exact Or.inl (subval_trans hc hs)
            · right
              -- the child is a fresh primitive, so any node result of the
              -- recursion is the child itself
              cases child with
              | obj kvs => simp [isPrim, isObjOrArr] at hs
              | arr vs => simp [isPrim, isObjOrArr] at hs
              | str s =>
                cases hc with
                | refl => rfl
              | num n =>
                cases hc with
                | refl => rfl
              | bool b =>
                cases hc with
                | refl => rfl
              | null =>
                cases hc with
                | refl => rfl
              | undef =>
                cases hc with
                | refl => rfl
          · exact Or.inr hc
      cases v with
      | null => exact absurd h (by simp)
      | undef => exact absurd h (by simp)
      | obj kvs => exact step _ h
      | arr vs => exact step _ h
      | str s => exact step _ h
      | num n => exact step _ h
      | bool b => exact step _ h

/-- C4 (evaluation at the failing input): on `{a: {b: {c: 3}}}` with
XPath `/a/b/c` the code descends through all three segments and returns
the bare leaf `3`, not the single-key wrapper `{c: 3}` that the claim
(and the repository's own test "resolves a multi-level path") expects. -/
theorem resolveXPath_abc_returns_bare_leaf :
    resolveXPath (some abcTree) "/a/b/c" = .ok (some (.num 3))
    ∧ NVal.num 3 ≠ NVal.obj [("c", .num 3)] := by
  refine ⟨rfl, fun h => NVal.noConfusion h⟩

/-- C5 (evaluation at the failing input): on `{a: {b: {c: 3}}}` with
XPath `//b` the code has no deep-search mode: the empty segment produced
by `//` fails the `/[^[]+/` match and the whole input tree is returned,
not `{b: {c: 3}}` as the claim (and the repository's own test "correctly
handles filter in xpathItems 3") expects. -/
theorem resolveXPath_doubleslash_returns_input :
    resolveXPath (some abcTree) "//b" = .ok (some abcTree)
    ∧ abcTree ≠ NVal.obj [("b", .obj [("c", .num 3)])] := by
  refine ⟨rfl, ?_⟩
  intro h
  simp [abcTree] at h

/-- C10: `resolveXPath` is pure in this model (it cannot mutate its
input), and every defined result is either the input tree itself, a node
aliased from within it, or a primitive; it never constructs a new
mapping or list node. -/
theorem resolveXPath_frame (obj : NVal) (p : String) (r : NVal)
    (h : resolveXPath (some obj) p = .ok (some r)) :
    SubVal r obj ∨ isPrim r = true := by
  unfold resolveXPath at h
  dsimp only at h
  cases hx : resolveXPathRecursive obj
      (match splitOnChar '/' p.data with
        | [] :: rest => rest
        | l => l) with
  | error e =>
    rw [hx] at h
    exact absurd h (by simp [Except.map])
  | ok v =>
    rw [hx] at h
    simp only [Except.map] at h
    injection h with h
    injection h with h
    subst h
    exact resolveXPathRecursive_subval _ _ _ hx

/-- C10 witness: `resolveXPath({a:{b:{c:3}}}, '/a')` yields the inner
`{b: {c: 3}}`, a node of the input. -/
theorem resolveXPath_frame_witness :
    SubVal (NVal.obj [("b", .obj [("c", .num 3)])]) abcTree
      ∨ isPrim (NVal.obj [("b", .obj [("c", .num 3)])]) = true :=
  resolveXPath_frame abcTree "/a" _ rfl

/-! ## Claim theorems: session engine -/

/-- C3: within one session the message-ids assigned by `sendRequest` to
successive requests (the close-session request goes through
`sendRequest` too) form the strictly increasing sequence 1, 2, 3, …; no
two requests share a message-id and none is ever reused. -/
theorem messageIds_strictly_increasing (n : Nat) :
    messageIds initialClient n = List.range' 1 n
    ∧ List.Pairwise (· < ·) (messageIds initialClient n)
    ∧ (messageIds initialClient n).Nodup := by
  have gen : ∀ m c, messageIds ⟨c⟩ m = List.range' (c + 1) m := by
    intro m
    induction m with
    | zero => intro c; rfl
    | succ m ih =>
      intro c
      rw [messageIds, List.range'_succ (c + 1) m 1]
      show (c + 1) :: messageIds ⟨c + 1⟩ m
          = (c + 1) :: List.range' (c + 1 + 1) m
      rw [ih (c + 1)]

  have h1 : messageIds initialClient n = List.range' 1 n := gen n 0
  refine ⟨h1, ?_, ?_⟩
  · rw [h1]
    simpa using List.pairwise_lt_range' 1 n 1 (by omega)
  · rw [h1]
    exact List.nodup_range' _ _

/-- C8 counterexample: after a completed `close()` the channel subject
is `undefined` (`none`); a second `close()` then produces the
"already closed" error instead of succeeding, so `close()` is not
idempotent against an already-closed session. -/
theorem close_after_close_errors :
    closeStep (some .ready) = .ok none
    ∧ closeStep none
        = .error "Trying to close connection that was already closed"
    ∧ ∀ s', closeStep none ≠ .ok s' := by
  exact ⟨rfl, rfl, fun s' h => Except.noConfusion h⟩

/-- C8 amended: `close()` returns the "not opened" error exactly on a
never-opened (uninitialized) session, and on an already-closed session
it returns a distinct "already closed" error (it does not succeed);
from `connecting` or `ready` it succeeds and destroys the subject. -/
theorem close_guard_characterization (s : Option ChannelState) :
    (closeStep s = .error "Trying to close connection that was not opened"
      ↔ s = some .uninitialized)
    ∧ (closeStep s = .error "Trying to close connection that was already closed"
      ↔ s = none)
    ∧ (closeStep s = .ok none
      ↔ (s = some .connecting ∨ s = some .ready)) := by
  rcases s with _ | c
  · decide
  · cases c <;> decide

/-- C7 counterexample: for an `rpc-error` whose `error-message` is an
object carrying no `_` text, with `error-tag` `unknown-element` and
`error-info.bad-element` present, `hasError` returns the raw tag, while
the spec's precedence selects the inferred text. -/
theorem hasError_object_message_counterexample :
    hasError (some ⟨.obj none, some "unknown-element", some "x", none⟩)
      = some "unknown-element"
    ∧ specClaimedErrorMessage ⟨.obj none, some "unknown-element", some "x", none⟩
      = some "Unknown element: \"x\". Do you need to provide a namespace?"
    ∧ ("unknown-element" : String)
      ≠ "Unknown element: \"x\". Do you need to provide a namespace?" := by
  refine ⟨rfl, rfl, by decide⟩

/-- C7 amended: the classified message equals the amended precedence:
the explicit `error-message._` or string text first; an object
`error-message` without `_` text (or a `null` one) falls back directly
to the raw `error-tag`; the inferred per-tag texts apply only when
`error-message` is absent. -/
theorem hasError_amended_precedence (e : Option RpcErrorType) :
    hasError e = e.bind amendedErrorMessage := by
  rcases e with _ | ⟨em, tag, be, bn⟩
  · rfl
  · cases em with
    | obj m => cases m <;> rfl
    | nullv => rfl
    | str s => rfl
    | absent => rfl

/-- C9 amended: the end-of-message delimiter is the literal SIX-byte
sequence `]]>]]>` (six ASCII characters, one byte each); the framer
splits on exactly these bytes, and every outgoing message is terminated
by the delimiter (preceded by a newline). -/
theorem delim_six_bytes :
    NETCONF_DELIM = "]]>]]>"
    ∧ NETCONF_DELIM.length = 6
    ∧ NETCONF_DELIM.data.map Char.toNat = delimBytes
    ∧ (∀ b ∈ delimBytes, b < 128)
    ∧ ∀ xml : String, NETCONF_DELIM.data <:+ (frameOutgoing xml).data := by
  refine ⟨rfl, by decide, by decide, by decide, ?_⟩
  intro xml
  show NETCONF_DELIM.data <:+ (xml ++ "\n" ++ NETCONF_DELIM).data
  rw [String.data_append]
  exact List.suffix_append _ _

/-! ## Claim theorems: schema-guided build -/

/-- C6 counterexample: with target `{a: {}, b: {}}` and canonical path
`["a"]`, the branch `a` yields a result, so by the time the loop reaches
the sibling `b` the accumulated `branchPassed` is already `true`, and
the `b` branch — although its own traversal produces no result (second
conjunct) and it is a non-primitive sub-key (third conjunct) — is NOT
deleted from the target: the resulting tree still holds `b`. -/
theorem buildconfig_failed_branch_retained :
    findConfigPartsInSchema none (.obj [("a", .obj []), ("b", .obj [])]) ["a"]
      = (.obj [("a", .obj []), ("b", .obj [])], [.obj []])
    ∧ (searchSchema none ["a"] 1 (.obj [])).2.1 = []
    ∧ isTypeofObject (.obj []) = true := ⟨rfl, rfl, rfl⟩

/-- C6 amended: a branch that produced no result is deleted only while
no earlier sibling branch has produced a result.  The guarantee that
does hold: the traversal reports `branchPassed = true` exactly when some
config part was collected, and a node from which NO branch produced any
result has every non-primitive sub-key deleted (object results keep only
primitive entries; array results keep only primitive or deleted slots). -/
theorem searchSchema_prune_amended (steps : List String) (step : Nat)
    (v : NVal) :
    ((searchSchema none steps step v).2.2 = true
      ↔ (searchSchema none steps step v).2.1 ≠ [])
    ∧ ((searchSchema none steps step v).2.2 = false →
        (searchSchema none steps step v).2.1 = []
        ∧ (∀ kvs, (searchSchema none steps step v).1 = NVal.obj kvs →
            ∀ p ∈ kvs, isTypeofObject p.2 = false)
        ∧ (∀ vs, (searchSchema none steps step v).1 = NVal.arr vs →
            ∀ x ∈ vs, isTypeofObject x = false)) := by
  have main : ∀ n (v : NVal), sizeOf v ≤ n →
      ∀ (steps : List String) (step : Nat),
      ((searchSchema none steps step v).2.2 = true
        ↔ (searchSchema none steps step v).2.1 ≠ [])
      ∧ ((searchSchema none steps step v).2.2 = false →
          (searchSchema none steps step v).2.1 = []
          ∧ (∀ kvs, (searchSchema none steps step v).1 = NVal.obj kvs →
              ∀ p ∈ kvs, isTypeofObject p.2 = false)
          ∧ (∀ vs, (searchSchema none steps step v).1 = NVal.arr vs →
              ∀ x ∈ vs, isTypeofObject x = false)) := by
    intro n
    induction n with
    | zero =>
      intro v hv
      exfalso
      cases v <;> simp at hv
    | succ n ih =>
      intro v hv steps step
      cases v with
      | str s =>
        rw [searchSchema]
        · split
          · exact ⟨by simp, by simp⟩
          split
          · exact ⟨by simp, by simp⟩
          exact ⟨by simp, by simp⟩
        · intro a h
          exact NVal.noConfusion h
        · intro a h
          exact NVal.noConfusion h
      | num m =>
        rw [searchSchema]
        · split
          · exact ⟨by simp, by simp⟩
          split
          · exact ⟨by simp, by simp⟩
          exact ⟨by simp, by simp⟩
        · intro a h
          exact NVal.noConfusion h
        · intro a h
          exact NVal.noConfusion h
      | bool b =>
        rw [searchSchema]
        · split
          · exact ⟨by simp, by simp⟩
          split
          · exact ⟨by simp, by simp⟩
          exact ⟨by simp, by simp⟩
        · intro a h
          exact NVal.noConfusion h
        · intro a h
          exact NVal.noConfusion h
      | null =>
        rw [searchSchema]
        · split
          · exact ⟨by simp, by simp⟩
          split
          · exact ⟨by simp, by simp⟩
          exact ⟨by simp, by simp⟩
        · intro a h
          exact NVal.noConfusion h
        · intro a h
          exact NVal.noConfusion h
      | undef =>
        rw [searchSchema]
        · split
          · exact ⟨by simp, by simp⟩
          split
          · exact ⟨by simp, by simp⟩
          exact ⟨by simp, by simp⟩
        · intro a h
          exact NVal.noConfusion h
        · intro a h
          exact NVal.noConfusion h
      | obj kvs =>
        rw [searchSchema]
        by_cases hb1 : steps = []
        · rw [if_pos hb1]
          exact ⟨by simp, by simp⟩
        rw [if_neg hb1]
        by_cases hb2 : steps = ["*"] ∧ isArr (NVal.obj kvs) = false
        · rw [if_pos hb2]
          exact ⟨by simp, by simp⟩
        rw [if_neg hb2]
        have hkvs : sizeOf kvs ≤ n := by
          have hs : sizeOf (NVal.obj kvs) = 1 + sizeOf kvs := by simp
          omega
        have hE : ∀ (l : List (String × NVal)), sizeOf l ≤ n → ∀ acc : Bool,
            ((searchEntries none steps step l acc).2.2 = true
              ↔ (acc = true
                  ∨ (searchEntries none steps step l acc).2.1 ≠ []))
            ∧ ((searchEntries none steps step l acc).2.2 = false →
                (searchEntries none steps step l acc).2.1 = []
                ∧ ∀ p ∈ (searchEntries none steps step l acc).1,
                    isTypeofObject p.2 = false) := by
          intro l
          induction l with
          | nil =>
            intro hl acc
            rw [searchEntries]
            exact ⟨by cases acc <;> simp, fun hf => ⟨rfl, by simp⟩⟩
          | cons e rest ihl =>
            rintro hl acc
            obtain ⟨k, c⟩ := e
            have hcsz : sizeOf c ≤ n := by
              have h1 : sizeOf ((k, c) :: rest)
                  = 1 + (1 + sizeOf k + sizeOf c) + sizeOf rest := by simp
              omega
            have hrest : sizeOf rest ≤ n := by
              have h1 : sizeOf ((k, c) :: rest)
                  = 1 + (1 + sizeOf k + sizeOf c) + sizeOf rest := by simp
              omega
            rw [searchEntries]
            cases hkc : keyStepChoice steps k (isArr c) with
            | convert =>
              dsimp only
              simp only [Bool.true_or]
              rw [if_neg (by simp)]
              obtain ⟨ihl2, ihl1⟩ := ihl hrest true
              constructor
              · simp [ihl2]
              · intro hf
                have := ihl2.mpr (Or.inl rfl)
                rw [hf] at this
                exact Bool.noConfusion this
            | recurse ns' =>
              dsimp only
              have hpr := (ih c hcsz ns' (step + 1)).1
              by_cases hdel :
                  ((searchSchema none ns' (step + 1) c).2.2 || acc) = false
                  ∧ isTypeofObject (searchSchema none ns' (step + 1) c).1 = true
              · rw [if_pos hdel]
                obtain ⟨ihl2, ihl1⟩ :=
                  ihl hrest ((searchSchema none ns' (step + 1) c).2.2 || acc)
                have hpp : (searchSchema none ns' (step + 1) c).2.2 = false := by
                  rcases hdel with ⟨h1, -⟩
                  cases hbb : (searchSchema none ns' (step + 1) c).2.2
                  · rfl
                  · rw [hbb] at h1; simp at h1
                have haccF : acc = false := by
                  rcases hdel with ⟨h1, -⟩
                  rw [hpp] at h1
                  simpa using h1
                have hparts : (searchSchema none ns' (step + 1) c).2.1 = [] := by
                  by_contra hne
                  have := hpr.mpr hne
                  rw [hpp] at this
                  exact Bool.noConfusion this
                dsimp only
                constructor
                · rw [ihl2, hdel.1, hparts, haccF]
                  simp
                · intro hf
                  obtain ⟨hp1, hp2⟩ := ihl1 hf
                  exact ⟨by rw [hparts, hp1]; rfl, hp2⟩
              · rw [if_neg hdel]
                obtain ⟨ihl2, ihl1⟩ :=
                  ihl hrest ((searchSchema none ns' (step + 1) c).2.2 || acc)
                dsimp only
                constructor
                · rw [ihl2]
                  constructor
                  · rintro (hacc | hne)
                    · rcases (Bool.or_eq_true _ _).mp hacc with hx | hx
                      · right
                        have hner := hpr.mp hx
                        intro hcc
                        rw [List.append_eq_nil] at hcc
                        exact hner hcc.1
                      · exact Or.inl hx
                    · right
                      intro hcc
                      rw [List.append_eq_nil] at hcc
                      exact hne hcc.2
                  · rintro (hacc | hne)
                    · exact Or.inl (by rw [Bool.or_eq_true]; exact Or.inr hacc)
                    · by_cases hc1 : (searchSchema none ns' (step + 1) c).2.1 = []
                      · refine Or.inr ?_
                        intro hcc
                        exact hne (by rw [hc1, hcc]; rfl)
                      · exact Or.inl
                          (by rw [Bool.or_eq_true]; exact Or.inl (hpr.mpr hc1))
                · intro hf
                  obtain ⟨hp1, hp2⟩ := ihl1 hf
                  have haccp :
                      ((searchSchema none ns' (step + 1) c).2.2 || acc) = false := by
                    cases hbb : ((searchSchema none ns' (step + 1) c).2.2 || acc)
                    · rfl
                    · have := ihl2.mpr (Or.inl hbb)
                      rw [hf] at this
                      exact Bool.noConfusion this
                  have hpp : (searchSchema none ns' (step + 1) c).2.2 = false := by
                    cases hbb : (searchSchema none ns' (step + 1) c).2.2
                    · rfl
                    · rw [hbb] at haccp; simp at haccp
                  have hparts : (searchSchema none ns' (step + 1) c).2.1 = [] := by
                    by_contra hne2
                    have := hpr.mpr hne2
                    rw [hpp] at this
                    exact Bool.noConfusion this
                  refine ⟨by rw [hparts, hp1]; rfl, ?_⟩
                  intro p hp
                  rcases List.mem_cons.mp hp with heq | hmem
                  · rw [heq]
                    have hno : ¬ isTypeofObject
                        (searchSchema none ns' (step + 1) c).1 = true :=
                      fun hobj => hdel ⟨haccp, hobj⟩
                    simpa using hno
                  · exact hp2 p hmem
        try dsimp only
        obtain ⟨hE2, hE1⟩ := hE kvs hkvs false
        have htree : (if step = 1 then
              injectNamespace none
                (NVal.obj (searchEntries none steps step kvs false).1)
            else NVal.obj (searchEntries none steps step kvs false).1)
            = NVal.obj (searchEntries none steps step kvs false).1 := by
          split
          · rfl
          · rfl
        rw [htree]
        constructor
        · rw [hE2]
          simp
        · intro hf
          obtain ⟨hp1, hp2⟩ := hE1 hf
          refine ⟨hp1, ?_, ?_⟩
          · intro kvs' heq
            injection heq with heq
            rw [← heq]
            exact hp2
          · intro vs heq
            exact absurd heq (by simp)
      | arr vs =>
        rw [searchSchema]
        by_cases hb1 : steps = []
        · rw [if_pos hb1]
          exact ⟨by simp, by simp⟩
        rw [if_neg hb1]
        by_cases hb2 : steps = ["*"] ∧ isArr (NVal.arr vs) = false
        · rw [if_pos hb2]
          exact ⟨by simp, by simp⟩
        rw [if_neg hb2]
        have hvs : sizeOf vs ≤ n := by
          have hs : sizeOf (NVal.arr vs) = 1 + sizeOf vs := by simp
          omega
        have hEa : ∀ (l : List NVal), sizeOf l ≤ n → ∀ (idx : Nat) (acc : Bool),
            ((searchElems none steps step idx l acc).2.2 = true
              ↔ (acc = true
                  ∨ (searchElems none steps step idx l acc).2.1 ≠ []))
            ∧ ((searchElems none steps step idx l acc).2.2 = false →
                (searchElems none steps step idx l acc).2.1 = []
                ∧ ∀ x ∈ (searchElems none steps step idx l acc).1,
                    isTypeofObject x = false) := by
          intro l
          induction l with
          | nil =>
            intro hl idx acc
            rw [searchElems]
            exact ⟨by cases acc <;> simp, fun hf => ⟨rfl, by simp⟩⟩
          | cons c rest ihl =>
            intro hl idx acc
            have hcsz : sizeOf c ≤ n := by
              have h1 : sizeOf (c :: rest) = 1 + sizeOf c + sizeOf rest := by
                simp
              omega
            have hrest : sizeOf rest ≤ n := by
              have h1 : sizeOf (c :: rest) = 1 + sizeOf c + sizeOf rest := by
                simp
              omega
            rw [searchElems]
            by_cases hu : isUndef c = true
            · rw [if_pos hu]
              obtain ⟨ihl2, ihl1⟩ := ihl hrest (idx + 1) acc
              constructor
              · exact ihl2
              · intro hf
                obtain ⟨hp1, hp2⟩ := ihl1 hf
                refine ⟨hp1, ?_⟩
                intro x hx
                rcases List.mem_cons.mp hx with heq | hmem
                · rw [heq]; rfl
                · exact hp2 x hmem
            · rw [if_neg hu]
              cases hkc : keyStepChoice steps (Nat.repr idx) (isArr c) with
              | convert =>
                dsimp only
                simp only [Bool.true_or]
                rw [if_neg (by simp)]
                obtain ⟨ihl2, ihl1⟩ := ihl hrest (idx + 1) true
                constructor
                · simp [ihl2]
                · intro hf
                  have := ihl2.mpr (Or.inl rfl)
                  rw [hf] at this
                  exact Bool.noConfusion this
              | recurse ns' =>
                dsimp only
                have hpr := (ih c hcsz ns' (step + 1)).1
                by_cases hdel :
                    ((searchSchema none ns' (step + 1) c).2.2 || acc) = false
                    ∧ isTypeofObject (searchSchema none ns' (step + 1) c).1 = true
                · rw [if_pos hdel]
                  obtain ⟨ihl2, ihl1⟩ :=
                    ihl hrest (idx + 1)
                      ((searchSchema none ns' (step + 1) c).2.2 || acc)
                  have hpp : (searchSchema none ns' (step + 1) c).2.2 = false := by
                    rcases hdel with ⟨h1, -⟩
                    cases hbb : (searchSchema none ns' (step + 1) c).2.2
                    · rfl
                    · rw [hbb] at h1; simp at h1
                  have haccF : acc = false := by
                    rcases hdel with ⟨h1, -⟩
                    rw [hpp] at h1
                    simpa using h1
                  have hparts : (searchSchema none ns' (step + 1) c).2.1 = [] := by
                    by_contra hne
                    have := hpr.mpr hne
                    rw [hpp] at this
                    exact Bool.noConfusion this
                  dsimp only
                  constructor
                  · rw [ihl2, hdel.1, hparts, haccF]
                    simp
                  · intro hf
                    obtain ⟨hp1, hp2⟩ := ihl1 hf
                    refine ⟨by rw [hparts, hp1]; rfl, ?_⟩
                    intro x hx
                    rcases List.mem_cons.mp hx with heq | hmem
                    · rw [heq]; rfl
                    · exact hp2 x hmem
                · rw [if_neg hdel]
                  obtain ⟨ihl2, ihl1⟩ :=
                    ihl hrest (idx + 1)
                      ((searchSchema none ns' (step + 1) c).2.2 || acc)
                  dsimp only
                  constructor
                  · rw [ihl2]
                    constructor
                    · rintro (hacc | hne)
                      · rcases (Bool.or_eq_true _ _).mp hacc with hx | hx
                        · right
                          have hner := hpr.mp hx
                          intro hcc
                          rw [List.append_eq_nil] at hcc
                          exact hner hcc.1
                        · exact Or.inl hx
                      · right
                        intro hcc
                        rw [List.append_eq_nil] at hcc
                        exact hne hcc.2
                    · rintro (hacc | hne)
                      · exact Or.inl (by rw [Bool.or_eq_true]; exact Or.inr hacc)
                      · by_cases hc1 :
                            (searchSchema none ns' (step + 1) c).2.1 = []
                        · refine Or.inr ?_
                          intro hcc
                          exact hne (by rw [hc1, hcc]; rfl)
                        · exact Or.inl
                            (by rw [Bool.or_eq_true]
                                exact Or.inl (hpr.mpr hc1))
                  · intro hf
                    obtain ⟨hp1, hp2⟩ := ihl1 hf
                    have haccp :
                        ((searchSchema none ns' (step + 1) c).2.2 || acc)
                          = false := by
                      cases hbb :
                          ((searchSchema none ns' (step + 1) c).2.2 || acc)
                      · rfl
                      · have := ihl2.mpr (Or.inl hbb)
                        rw [hf] at this
                        exact Bool.noConfusion this
                    have hpp :
                        (searchSchema none ns' (step + 1) c).2.2 = false := by
                      cases hbb : (searchSchema none ns' (step + 1) c).2.2
                      · rfl
                      · rw [hbb] at haccp; simp at haccp
                    have hparts :
                        (searchSchema none ns' (step + 1) c).2.1 = [] := by
                      by_contra hne2
                      have := hpr.mpr hne2
                      rw [hpp] at this
                      exact Bool.noConfusion this
                    refine ⟨by rw [hparts, hp1]; rfl, ?_⟩
                    intro x hx
                    rcases List.mem_cons.mp hx with heq | hmem
                    · rw [heq]
                      have hno : ¬ isTypeofObject
                          (searchSchema none ns' (step + 1) c).1 = true :=
                        fun hobj => hdel ⟨haccp, hobj⟩
                      simpa using hno
                    · exact hp2 x hmem
        try dsimp only
        obtain ⟨hE2, hE1⟩ := hEa vs hvs 0 false
        constructor
        · rw [hE2]
          simp
        · intro hf
          obtain ⟨hp1, hp2⟩ := hE1 hf
          refine ⟨hp1, ?_, ?_⟩
          · intro kvs' heq
            exact absurd heq (by simp)
          · intro vs' heq
            injection heq with heq
            rw [← heq]
            exact hp2
  exact main (sizeOf v) v (le_refl _) steps step

/-- C6 amended witness: an unmatched single-branch target is fully
pruned: the non-primitive branch `a` is deleted and no part collected. -/
theorem searchSchema_prune_amended_witness :
    (searchSchema none ["z"] 0 (.obj [("a", .obj [])])).2.1 = []
    ∧ (∀ kvs, (searchSchema none ["z"] 0 (.obj [("a", .obj [])])).1
          = NVal.obj kvs → ∀ p ∈ kvs, isTypeofObject p.2 = false)
    ∧ (∀ vs, (searchSchema none ["z"] 0 (.obj [("a", .obj [])])).1
          = NVal.arr vs → ∀ x ∈ vs, isTypeofObject x = false) :=
  (searchSchema_prune_amended ["z"] 0 (.obj [("a", .obj [])])).2 rfl

end Netconf
